import Mathlib

/-!
Verification of the linked-list structures in this repository.

The doubly-linked deque (src/deque.rs) is embedded as an explicit-heap
state machine: nodes live at natural-number addresses; each node stores
its element together with optional next/prev addresses, mirroring
the source type Link<T> = Option<Rc<RefCell<Node<T>>>>.  The Rc strong
count of a node at a quiescent state equals the number of structural
slots (list head, list tail, neighbour next/prev fields) holding that
address, so reference counts are modelled by counting those slots.
The heap is an association list kept in front-to-back order (the order
is representation freedom of the embedding; the Rust heap is unordered).
Rc::try_unwrap(..).ok().unwrap() in pop_front/pop_back panics unless the
popped node's strong count is exactly one (the local variable); the
embedding returns none (panic) in that case and some otherwise.

The persistent singly-linked list (src/persistent.rs) is embedded as a
pure inductive type; Rc sharing is transparent in a pure setting.
-/

/-- A node of the doubly-linked deque: element, optional next address,
optional prev address.  Mirrors struct Node<T> of src/deque.rs. -/
structure Node (α : Type) where
  elem : α
  next : Option Nat
  prev : Option Nat
deriving DecidableEq, Repr

/-- The deque state: head and tail slots (Link<T> in the source), the heap
of live nodes as an association list from address to node, and a
fresh-address counter modelling allocation. Mirrors struct List<T> of
src/deque.rs (named DList because List is taken in Lean). -/
structure DList (α : Type) where
  head : Option Nat
  tail : Option Nat
  nodes : List (Nat × Node α)
  fresh : Nat
deriving DecidableEq, Repr

/-- List::new() -/
def DList.new {α : Type} : DList α := ⟨none, none, [], 0⟩

/-- Look up the node stored at address a. -/
def getNode {α : Type} : List (Nat × Node α) → Nat → Option (Node α)
  | [], _ => none
  | (b, n) :: rest, a => if b = a then some n else getNode rest a

/-- Overwrite the next field of the node at address a
(old_head.borrow_mut().next = v in the source). -/
def updNext {α : Type} : List (Nat × Node α) → Nat → Option Nat → List (Nat × Node α)
  | [], _, _ => []
  | (b, n) :: rest, a, v =>
      (if b = a then (b, ⟨n.elem, v, n.prev⟩) else (b, n)) :: updNext rest a v

/-- Overwrite the prev field of the node at address a. -/
def updPrev {α : Type} : List (Nat × Node α) → Nat → Option Nat → List (Nat × Node α)
  | [], _, _ => []
  | (b, n) :: rest, a, v =>
      (if b = a then (b, ⟨n.elem, n.next, v⟩) else (b, n)) :: updPrev rest a v

/-- Deallocate the node at address a (the node's release when its last
Rc is consumed by Rc::try_unwrap). -/
def removeNode {α : Type} : List (Nat × Node α) → Nat → List (Nat × Node α)
  | [], _ => []
  | (b, n) :: rest, a =>
      if b = a then removeNode rest a else (b, n) :: removeNode rest a

/-- 1 if the slot holds address x, else 0. -/
def slotRef (o : Option Nat) (x : Nat) : Nat := if o = some x then 1 else 0

/-- Number of next/prev fields in the heap holding address x. -/
def ptrRefs {α : Type} : List (Nat × Node α) → Nat → Nat
  | [], _ => 0
  | (_, n) :: rest, x => slotRef n.next x + slotRef n.prev x + ptrRefs rest x

/-- Structural reference count of address x: the Rc strong count of the
node at x at a quiescent state (no operation in progress). -/
def refCount {α : Type} (s : DList α) (x : Nat) : Nat :=
  slotRef s.head x + slotRef s.tail x + ptrRefs s.nodes x

/-- List::push_front.  A new node is allocated; on a non-empty list the
old head's prev is set to the new node, the new node's next to the old
head, and the head slot replaced; on an empty list both head and tail
slots are set to the new node. -/
def push_front {α : Type} (s : DList α) (e : α) : DList α :=
  match s.head with
  | some oldHead =>
      ⟨some s.fresh, s.tail,
       (s.fresh, ⟨e, some oldHead, none⟩) :: updPrev s.nodes oldHead (some s.fresh),
       s.fresh + 1⟩
  | none =>
      ⟨some s.fresh, some s.fresh, (s.fresh, ⟨e, none, none⟩) :: s.nodes, s.fresh + 1⟩

/-- List::push_back.  Mirror image of push_front; the new node is placed
at the back of the heap list to keep the front-to-back order artifact. -/
def push_back {α : Type} (s : DList α) (e : α) : DList α :=
  match s.tail with
  | some oldTail =>
      ⟨s.head, some s.fresh,
       updNext s.nodes oldTail (some s.fresh) ++ [(s.fresh, ⟨e, none, some oldTail⟩)],
       s.fresh + 1⟩
  | none =>
      ⟨some s.fresh, some s.fresh, s.nodes ++ [(s.fresh, ⟨e, none, none⟩)], s.fresh + 1⟩

/-- List::pop_front.  Returns none when an internal panic would occur
(Rc::try_unwrap(..).ok().unwrap() with a strong count other than one, or
a dangling address — impossible in reachable states); otherwise
some (v, s') with v the popped value (none on the empty list) and s' the
state after the call. -/
def pop_front {α : Type} (s : DList α) : Option (Option α × DList α) :=
  match s.head with
  | none => some (none, s)
  | some oldHead =>
    match getNode s.nodes oldHead with
    | none => none
    | some oh =>
      match oh.next with
      | some newHead =>
          let nodes2 := updPrev (updNext s.nodes oldHead none) newHead none
          let s1 : DList α := ⟨some newHead, s.tail, nodes2, s.fresh⟩
          if refCount s1 oldHead = 0 then
            some (some oh.elem, ⟨some newHead, s.tail, removeNode nodes2 oldHead, s.fresh⟩)
          else none
      | none =>
          let nodes1 := updNext s.nodes oldHead none
          let s1 : DList α := ⟨none, none, nodes1, s.fresh⟩
          if refCount s1 oldHead = 0 then
            some (some oh.elem, ⟨none, none, removeNode nodes1 oldHead, s.fresh⟩)
          else none

/-- List::pop_back.  Mirror image of pop_front. -/
def pop_back {α : Type} (s : DList α) : Option (Option α × DList α) :=
  match s.tail with
  | none => some (none, s)
  | some oldTail =>
    match getNode s.nodes oldTail with
    | none => none
    | some ot =>
      match ot.prev with
      | some newTail =>
          let nodes2 := updNext (updPrev s.nodes oldTail none) newTail none
          let s1 : DList α := ⟨s.head, some newTail, nodes2, s.fresh⟩
          if refCount s1 oldTail = 0 then
            some (some ot.elem, ⟨s.head, some newTail, removeNode nodes2 oldTail, s.fresh⟩)
          else none
      | none =>
          let nodes1 := updPrev s.nodes oldTail none
          let s1 : DList α := ⟨none, none, nodes1, s.fresh⟩
          if refCount s1 oldTail = 0 then
            some (some ot.elem, ⟨none, none, removeNode nodes1 oldTail, s.fresh⟩)
          else none

/-- List::peek_front: the value behind the returned Ref<T>, if any. -/
def peek_front {α : Type} (s : DList α) : Option α :=
  match s.head with
  | none => none
  | some a => (getNode s.nodes a).map Node.elem

/-- List::peek_back. -/
def peek_back {α : Type} (s : DList α) : Option α :=
  match s.tail with
  | none => none
  | some a => (getNode s.nodes a).map Node.elem

/-- peek_front as a state transformer: the returned pair is the observed
value and the list as it stands after the call.  The source method takes
&self and only reads through node.borrow(), so the state is returned
unchanged. -/
def peek_front_op {α : Type} (s : DList α) : Option α × DList α := (peek_front s, s)

/-- peek_back as a state transformer. -/
def peek_back_op {α : Type} (s : DList α) : Option α × DList α := (peek_back s, s)

/-- The expected heap of a chain of addresses as holding elements es,
where p is the prev pointer of the first node: node i holds element i,
next = address i+1 (none at the end), prev = address i-1 (p at the
front). -/
def mkChain {α : Type} : Option Nat → List Nat → List α → List (Nat × Node α)
  | _, [], _ => []
  | _, _ :: _, [] => []
  | p, a :: as, e :: es => (a, ⟨e, as.head?, p⟩) :: mkChain (some a) as es

/-- Well-formedness: the state s is exactly the doubly-linked chain of
distinct addresses as holding elements es front-to-back, with the head
slot on the first node, the tail slot on the last, and every address
below the allocation counter. -/
def ChainInv {α : Type} (s : DList α) (as : List Nat) (es : List α) : Prop :=
  as.length = es.length ∧ as.Nodup ∧ s.head = as.head? ∧ s.tail = as.getLast? ∧
  s.nodes = mkChain none as es ∧ ∀ a ∈ as, a < s.fresh

/-- States reachable from List::new() through the public mutating API. -/
inductive Reachable {α : Type} : DList α → Prop where
  | init : Reachable DList.new
  | pushF : ∀ (s : DList α) (e : α), Reachable s → Reachable (push_front s e)
  | pushB : ∀ (s : DList α) (e : α), Reachable s → Reachable (push_back s e)
  | popF : ∀ (s : DList α) (v : Option α) (t : DList α),
      Reachable s → pop_front s = some (v, t) → Reachable t
  | popB : ∀ (s : DList α) (v : Option α) (t : DList α),
      Reachable s → pop_back s = some (v, t) → Reachable t

instance {α : Type} [DecidableEq α] (s : DList α) (as : List Nat) (es : List α) :
    Decidable (ChainInv s as es) := by
  unfold ChainInv
  exact inferInstance

/-- The addresses occupied in a heap. -/
def keys {α : Type} (l : List (Nat × Node α)) : List Nat := l.map Prod.fst

@[simp]
theorem keys_cons {α : Type} (b : Nat) (n : Node α) (l : List (Nat × Node α)) :
    keys ((b, n) :: l) = b :: keys l := rfl

@[simp]
theorem getNode_nil {α : Type} (a : Nat) : getNode ([] : List (Nat × Node α)) a = none := rfl

@[simp]
theorem updNext_nil {α : Type} (a : Nat) (v : Option Nat) :
    updNext ([] : List (Nat × Node α)) a v = [] := rfl

@[simp]
theorem updPrev_nil {α : Type} (a : Nat) (v : Option Nat) :
    updPrev ([] : List (Nat × Node α)) a v = [] := rfl

@[simp]
theorem removeNode_nil {α : Type} (a : Nat) :
    removeNode ([] : List (Nat × Node α)) a = [] := rfl

@[simp]
theorem getNode_cons_eq {α : Type} (a : Nat) (n : Node α) (rest : List (Nat × Node α)) :
    getNode ((a, n) :: rest) a = some n := by
  simp [getNode]

@[simp]
theorem getNode_cons_ne {α : Type} {b a : Nat} (h : b ≠ a) (n : Node α)
    (rest : List (Nat × Node α)) : getNode ((b, n) :: rest) a = getNode rest a := by
  simp [getNode, h]

@[simp]
theorem updNext_cons_eq {α : Type} (a : Nat) (n : Node α) (rest : List (Nat × Node α))
    (v : Option Nat) :
    updNext ((a, n) :: rest) a v = (a, ⟨n.elem, v, n.prev⟩) :: updNext rest a v := by
  simp [updNext]

@[simp]
theorem updNext_cons_ne {α : Type} {b a : Nat} (h : b ≠ a) (n : Node α)
    (rest : List (Nat × Node α)) (v : Option Nat) :
    updNext ((b, n) :: rest) a v = (b, n) :: updNext rest a v := by
  simp [updNext, h]

@[simp]
theorem updPrev_cons_eq {α : Type} (a : Nat) (n : Node α) (rest : List (Nat × Node α))
    (v : Option Nat) :
    updPrev ((a, n) :: rest) a v = (a, ⟨n.elem, n.next, v⟩) :: updPrev rest a v := by
  simp [updPrev]

@[simp]
theorem updPrev_cons_ne {α : Type} {b a : Nat} (h : b ≠ a) (n : Node α)
    (rest : List (Nat × Node α)) (v : Option Nat) :
    updPrev ((b, n) :: rest) a v = (b, n) :: updPrev rest a v := by
  simp [updPrev, h]

@[simp]
theorem removeNode_cons_eq {α : Type} (a : Nat) (n : Node α) (rest : List (Nat × Node α)) :
    removeNode ((a, n) :: rest) a = removeNode rest a := by
  simp [removeNode]

@[simp]
theorem removeNode_cons_ne {α : Type} {b a : Nat} (h : b ≠ a) (n : Node α)
    (rest : List (Nat × Node α)) :
    removeNode ((b, n) :: rest) a = (b, n) :: removeNode rest a := by
  simp [removeNode, h]

theorem keys_updNext {α : Type} (l : List (Nat × Node α)) (a : Nat) (v : Option Nat) :
    keys (updNext l a v) = keys l := by
  induction l with
  | nil => rfl
  | cons pr rest ih =>
      obtain ⟨b, n⟩ := pr
      by_cases hb : b = a <;> simp [updNext, keys, hb] at ih ⊢ <;> exact ih

theorem keys_updPrev {α : Type} (l : List (Nat × Node α)) (a : Nat) (v : Option Nat) :
    keys (updPrev l a v) = keys l := by
  induction l with
  | nil => rfl
  | cons pr rest ih =>
      obtain ⟨b, n⟩ := pr
      by_cases hb : b = a <;> simp [updPrev, keys, hb] at ih ⊢ <;> exact ih

theorem keys_mkChain {α : Type} :
    ∀ (as : List Nat) (es : List α) (p : Option Nat), as.length = es.length →
      keys (mkChain p as es) = as
  | [], _, _, _ => rfl
  | _ :: _, [], _, h => by simp at h
  | a :: as, e :: es, p, h => by
      simp only [mkChain, keys, List.map_cons]
      have := keys_mkChain as es (some a) (by simpa using h)
      simpa [keys] using this

theorem updNext_of_not_mem {α : Type} {l : List (Nat × Node α)} {a : Nat} (v : Option Nat)
    (h : a ∉ keys l) : updNext l a v = l := by
  induction l with
  | nil => rfl
  | cons pr rest ih =>
      obtain ⟨b, n⟩ := pr
      simp [keys] at h
      simp [updNext, Ne.symm h.1, ih (by simp [keys, h.2])]

theorem updPrev_of_not_mem {α : Type} {l : List (Nat × Node α)} {a : Nat} (v : Option Nat)
    (h : a ∉ keys l) : updPrev l a v = l := by
  induction l with
  | nil => rfl
  | cons pr rest ih =>
      obtain ⟨b, n⟩ := pr
      simp [keys] at h
      simp [updPrev, Ne.symm h.1, ih (by simp [keys, h.2])]

theorem removeNode_of_not_mem {α : Type} {l : List (Nat × Node α)} {a : Nat}
    (h : a ∉ keys l) : removeNode l a = l := by
  induction l with
  | nil => rfl
  | cons pr rest ih =>
      obtain ⟨b, n⟩ := pr
      simp [keys] at h
      simp [removeNode, Ne.symm h.1, ih (by simp [keys, h.2])]

theorem getNode_of_not_mem {α : Type} {l : List (Nat × Node α)} {a : Nat}
    (h : a ∉ keys l) : getNode l a = none := by
  induction l with
  | nil => rfl
  | cons pr rest ih =>
      obtain ⟨b, n⟩ := pr
      simp [keys] at h
      simp [getNode, Ne.symm h.1, ih (by simp [keys, h.2])]

theorem updNext_append {α : Type} (l₁ l₂ : List (Nat × Node α)) (a : Nat) (v : Option Nat) :
    updNext (l₁ ++ l₂) a v = updNext l₁ a v ++ updNext l₂ a v := by
  induction l₁ with
  | nil => rfl
  | cons pr rest ih => obtain ⟨b, n⟩ := pr; simp [updNext, ih]

theorem updPrev_append {α : Type} (l₁ l₂ : List (Nat × Node α)) (a : Nat) (v : Option Nat) :
    updPrev (l₁ ++ l₂) a v = updPrev l₁ a v ++ updPrev l₂ a v := by
  induction l₁ with
  | nil => rfl
  | cons pr rest ih => obtain ⟨b, n⟩ := pr; simp [updPrev, ih]

theorem removeNode_append {α : Type} (l₁ l₂ : List (Nat × Node α)) (a : Nat) :
    removeNode (l₁ ++ l₂) a = removeNode l₁ a ++ removeNode l₂ a := by
  induction l₁ with
  | nil => rfl
  | cons pr rest ih =>
      obtain ⟨b, n⟩ := pr
      by_cases hb : b = a <;> simp [removeNode, hb, ih]

theorem ptrRefs_append {α : Type} (l₁ l₂ : List (Nat × Node α)) (x : Nat) :
    ptrRefs (l₁ ++ l₂) x = ptrRefs l₁ x + ptrRefs l₂ x := by
  induction l₁ with
  | nil => simp [ptrRefs]
  | cons pr rest ih => obtain ⟨b, n⟩ := pr; simp [ptrRefs, ih]; omega

theorem getNode_append_right {α : Type} (l₁ l₂ : List (Nat × Node α)) (a : Nat)
    (h : a ∉ keys l₁) : getNode (l₁ ++ l₂) a = getNode l₂ a := by
  induction l₁ with
  | nil => rfl
  | cons pr rest ih =>
      obtain ⟨b, n⟩ := pr
      simp [keys] at h
      simp [getNode, Ne.symm h.1, ih (by simp [keys, h.2])]

theorem updNext_updNext {α : Type} (l : List (Nat × Node α)) (a : Nat) (v w : Option Nat) :
    updNext (updNext l a v) a w = updNext l a w := by
  induction l with
  | nil => rfl
  | cons pr rest ih =>
      obtain ⟨b, n⟩ := pr
      by_cases hb : b = a
      · subst hb
        rw [updNext_cons_eq, updNext_cons_eq, updNext_cons_eq, ih]
      · rw [updNext_cons_ne hb, updNext_cons_ne hb, updNext_cons_ne hb, ih]

theorem updNext_eq_self {α : Type} {l : List (Nat × Node α)} {a : Nat} {v : Option Nat}
    (h : ∀ pr ∈ l, pr.1 = a → pr.2.next = v) : updNext l a v = l := by
  induction l with
  | nil => rfl
  | cons pr rest ih =>
      obtain ⟨b, n⟩ := pr
      obtain ⟨ne, nn, np⟩ := n
      by_cases hb : b = a
      · have hn := h (b, ⟨ne, nn, np⟩) (by simp) hb
        simp at hn
        subst hn
        simp [updNext, hb, ih (fun q hq => h q (by simp [hq]))]
      · simp [updNext, hb, ih (fun q hq => h q (by simp [hq]))]

theorem updPrev_eq_self {α : Type} {l : List (Nat × Node α)} {a : Nat} {v : Option Nat}
    (h : ∀ pr ∈ l, pr.1 = a → pr.2.prev = v) : updPrev l a v = l := by
  induction l with
  | nil => rfl
  | cons pr rest ih =>
      obtain ⟨b, n⟩ := pr
      obtain ⟨ne, nn, np⟩ := n
      by_cases hb : b = a
      · have hn := h (b, ⟨ne, nn, np⟩) (by simp) hb
        simp at hn
        subst hn
        simp [updPrev, hb, ih (fun q hq => h q (by simp [hq]))]
      · simp [updPrev, hb, ih (fun q hq => h q (by simp [hq]))]

@[simp]
theorem mkChain_cons {α : Type} (p : Option Nat) (a : Nat) (as : List Nat) (e : α)
    (es : List α) :
    mkChain p (a :: as) (e :: es) = (a, ⟨e, as.head?, p⟩) :: mkChain (some a) as es := rfl

theorem length_mkChain {α : Type} :
    ∀ (as : List Nat) (es : List α) (p : Option Nat), as.length = es.length →
      (mkChain p as es).length = as.length
  | [], _, _, _ => rfl
  | _ :: _, [], _, h => by simp at h
  | a :: as, e :: es, p, h => by
      simp only [mkChain_cons, List.length_cons]
      rw [length_mkChain as es (some a) (by simpa using h)]

theorem mem_of_getLast?_eq_some {β : Type} {l : List β} {x : β}
    (h : l.getLast? = some x) : x ∈ l := by
  obtain ⟨hne, hEq⟩ := List.mem_getLast?_eq_getLast (Option.mem_def.mpr h)
  rw [hEq]
  exact List.getLast_mem hne

theorem mkChain_snoc {α : Type} :
    ∀ (as : List Nat) (es : List α) (p : Option Nat) (t b : Nat) (e : α),
      as.Nodup → as.getLast? = some t → as.length = es.length →
      mkChain p (as ++ [b]) (es ++ [e])
        = updNext (mkChain p as es) t (some b) ++ [(b, ⟨e, none, some t⟩)]
  | [], _, _, _, _, _, _, hlast, _ => by simp at hlast
  | _ :: _, [], _, _, _, _, _, _, h => by simp at h
  | [a], [e1], p, t, b, e, _, hlast, _ => by
      simp at hlast
      subst hlast
      simp [mkChain, updNext]
  | a :: a2 :: as, e1 :: e2 :: es, p, t, b, e, hnd, hlast, hlen => by
      have hlast2 : (a2 :: as).getLast? = some t := by
        rw [List.getLast?_cons_cons] at hlast
        exact hlast
      have ht : t ∈ a2 :: as := mem_of_getLast?_eq_some hlast2
      have hat : a ≠ t := by
        intro hEq
        subst hEq
        exact (List.nodup_cons.mp hnd).1 ht
      have ih := mkChain_snoc (a2 :: as) (e2 :: es) (some a) t b e
        (List.nodup_cons.mp hnd).2 hlast2 (by simpa using hlen)
      show (a, (⟨e1, some a2, p⟩ : Node α))
            :: mkChain (some a) ((a2 :: as) ++ [b]) ((e2 :: es) ++ [e])
          = updNext ((a, (⟨e1, some a2, p⟩ : Node α))
              :: mkChain (some a) (a2 :: as) (e2 :: es)) t (some b)
            ++ [(b, ⟨e, none, some t⟩)]
      rw [updNext_cons_ne hat, ih]
      rfl

theorem mkChain_last_next {α : Type} :
    ∀ (as : List Nat) (es : List α) (p : Option Nat) (t : Nat),
      as.Nodup → as.getLast? = some t →
      ∀ pr ∈ mkChain p as es, pr.1 = t → pr.2.next = none
  | [], _, _, _, _, _, _, hpr, _ => by simp [mkChain] at hpr
  | _ :: _, [], _, _, _, _, _, hpr, _ => by simp [mkChain] at hpr
  | a :: as, e :: es, p, t, hnd, hlast, pr, hpr, hkey => by
      rw [mkChain_cons] at hpr
      rcases List.mem_cons.mp hpr with hEq | hmem
      · subst hEq
        simp only at hkey
        subst hkey
        cases as with
        | nil => rfl
        | cons a2 as2 =>
            exfalso
            rw [List.getLast?_cons_cons] at hlast
            exact (List.nodup_cons.mp hnd).1 (mem_of_getLast?_eq_some hlast)
      · cases as with
        | nil => simp [mkChain] at hmem
        | cons a2 as2 =>
            rw [List.getLast?_cons_cons] at hlast
            exact mkChain_last_next (a2 :: as2) es (some a) t
              (List.nodup_cons.mp hnd).2 hlast pr hmem hkey

theorem slotRef_eq_zero {x : Nat} {o : Option Nat} (h : o ≠ some x) : slotRef o x = 0 := by
  simp [slotRef, h]

theorem slotRef_eq_one (x : Nat) : slotRef (some x) x = 1 := by
  simp [slotRef]

theorem ptrRefs_mkChain_zero {α : Type} :
    ∀ (as : List Nat) (es : List α) (p : Option Nat) (x : Nat),
      x ∉ as → p ≠ some x → ptrRefs (mkChain p as es) x = 0
  | [], _, _, _, _, _ => rfl
  | _ :: _, [], _, _, _, _ => rfl
  | a :: as, e :: es, p, x, hx, hp => by
      have hax : a ≠ x := fun h => hx (h ▸ List.mem_cons_self a as)
      have hxas : x ∉ as := fun h => hx (List.mem_cons_of_mem a h)
      have hnext : (as.head? : Option Nat) ≠ some x := by
        cases as with
        | nil => simp
        | cons a2 as2 =>
            simp only [List.head?_cons, ne_eq, Option.some.injEq]
            exact fun h => hxas (h ▸ List.mem_cons_self a2 as2)
      simp only [mkChain_cons, ptrRefs]
      rw [slotRef_eq_zero hnext, slotRef_eq_zero hp,
        ptrRefs_mkChain_zero as es (some a) x hxas (by simpa using hax)]

theorem ptrRefs_mkChain_boundary {α : Type} :
    ∀ (as : List Nat) (es : List α) (x : Nat),
      x ∉ as → as.length = es.length →
      ptrRefs (mkChain (some x) as es) x = if as = [] then 0 else 1
  | [], _, _, _, _ => rfl
  | _ :: _, [], _, _, h => by simp at h
  | a :: as, e :: es, x, hx, hlen => by
      have hax : a ≠ x := fun h => hx (h ▸ List.mem_cons_self a as)
      have hxas : x ∉ as := fun h => hx (List.mem_cons_of_mem a h)
      have hnext : (as.head? : Option Nat) ≠ some x := by
        cases as with
        | nil => simp
        | cons a2 as2 =>
            simp only [List.head?_cons, ne_eq, Option.some.injEq]
            exact fun h => hxas (h ▸ List.mem_cons_self a2 as2)
      simp only [mkChain_cons, ptrRefs]
      rw [slotRef_eq_zero hnext, slotRef_eq_one,
        ptrRefs_mkChain_zero as es (some a) x hxas (by simpa using hax)]
      simp

theorem getLast?_cons_eq_self_iff {a : Nat} {as : List Nat} (hnd : (a :: as).Nodup) :
    (a :: as).getLast? = some a ↔ as = [] := by
  constructor
  · intro h
    cases as with
    | nil => rfl
    | cons a2 as2 =>
        exfalso
        rw [List.getLast?_cons_cons] at h
        exact (List.nodup_cons.mp hnd).1 (mem_of_getLast?_eq_some h)
  · intro h
    subst h
    rfl

theorem ptrRefs_mkChain_mem {α : Type} :
    ∀ (as : List Nat) (es : List α) (p : Option Nat) (x : Nat),
      as.length = es.length → as.Nodup → x ∈ as →
      ptrRefs (mkChain p as es) x
        = slotRef p x + (if as.head? = some x then 0 else 1)
            + (if as.getLast? = some x then 0 else 1)
  | [], _, _, _, _, _, hx => by simp at hx
  | _ :: _, [], _, _, h, _, _ => by simp at h
  | a :: as, e :: es, p, x, hlen, hnd, hx => by
      have hlen2 : as.length = es.length := by simpa using hlen
      have hnd2 := List.nodup_cons.mp hnd
      by_cases hax : x = a
      · subst hax
        have hxas : x ∉ as := hnd2.1
        have hhead : (as.head? : Option Nat) ≠ some x := by
          cases as with
          | nil => simp
          | cons a2 as2 =>
              simp only [List.head?_cons, ne_eq, Option.some.injEq]
              exact fun h => hxas (h ▸ List.mem_cons_self a2 as2)
        simp only [mkChain_cons, ptrRefs]
        rw [slotRef_eq_zero hhead, ptrRefs_mkChain_boundary as es x hxas hlen2]
        have hgl := getLast?_cons_eq_self_iff hnd
        by_cases hnil : as = []
        · simp [hnil, hgl.mpr hnil]
        · have : ¬ (x :: as).getLast? = some x := fun h => hnil (hgl.mp h)
          simp [hnil, this]
      · have hmem : x ∈ as := by
          rcases List.mem_cons.mp hx with h | h
          · exact absurd h hax
          · exact h
        have hne : as ≠ [] := by
          intro h
          rw [h] at hmem
          simp at hmem
        have ih := ptrRefs_mkChain_mem as es (some a) x hlen2 hnd2.2 hmem
        simp only [mkChain_cons, ptrRefs]
        rw [ih, @slotRef_eq_zero x (some a) (by simpa using fun h => hax h.symm)]
        have hgl : (a :: as).getLast? = as.getLast? := by
          cases as with
          | nil => exact absurd rfl hne
          | cons a2 as2 => rw [List.getLast?_cons_cons]
        rw [hgl]
        have hh1 : ((a :: as).head? : Option Nat) ≠ some x := by
          simp only [List.head?_cons, ne_eq, Option.some.injEq]
          exact fun h => hax h.symm
        rw [if_neg hh1]
        by_cases hh2 : as.head? = some x
        · rw [if_pos hh2]
          have : slotRef as.head? x = 1 := by rw [hh2]; exact slotRef_eq_one x
          omega
        · rw [if_neg hh2]
          have : slotRef as.head? x = 0 := slotRef_eq_zero hh2
          omega

theorem refCount_eq_two {α : Type} {s : DList α} {as : List Nat} {es : List α}
    (h : ChainInv s as es) {x : Nat} (hx : x ∈ as) : refCount s x = 2 := by
  obtain ⟨hlen, hnd, hh, ht, hn, _⟩ := h
  unfold refCount
  rw [hh, ht, hn, ptrRefs_mkChain_mem as es none x hlen hnd hx,
    @slotRef_eq_zero x none (by simp)]
  by_cases h1 : as.head? = some x <;> by_cases h2 : as.getLast? = some x <;>
    simp [slotRef, h1, h2]

theorem push_front_spec {α : Type} {s : DList α} {as : List Nat} {es : List α}
    (h : ChainInv s as es) (e : α) :
    ChainInv (push_front s e) (s.fresh :: as) (e :: es) := by
  obtain ⟨sh, st, sn, sf⟩ := s
  obtain ⟨hlen, hnd, hh, ht, hn, hf⟩ := h
  simp only at hh ht hn hf ⊢
  cases as with
  | nil =>
      cases es with
      | cons _ _ => simp at hlen
      | nil =>
          have hh0 : sh = none := by simpa using hh
          have ht0 : st = none := by simpa using ht
          have hn0 : sn = [] := by simpa [mkChain] using hn
          subst hh0 ht0 hn0
          show ChainInv ⟨some sf, some sf, [(sf, ⟨e, none, none⟩)], sf + 1⟩ [sf] [e]
          refine ⟨rfl, by simp, rfl, rfl, rfl, ?_⟩
          intro b hb
          show b < sf + 1
          simp at hb
          omega
  | cons a as2 =>
      cases es with
      | nil => simp at hlen
      | cons e1 es2 =>
          have hlen2 : as2.length = es2.length := by simpa using hlen
          have hnd2 := List.nodup_cons.mp hnd
          have hh0 : sh = some a := by simpa using hh
          subst hh0 hn
          have hsf : sf ∉ a :: as2 := by
            intro hmem
            exact absurd (hf sf hmem) (lt_irrefl sf)
          show ChainInv ⟨some sf, st,
              (sf, ⟨e, some a, none⟩)
                :: updPrev (mkChain none (a :: as2) (e1 :: es2)) a (some sf), sf + 1⟩
            (sf :: a :: as2) (e :: e1 :: es2)
          refine ⟨by simpa using hlen, List.nodup_cons.mpr ⟨hsf, hnd⟩, rfl, ?_, ?_, ?_⟩
          · rw [List.getLast?_cons_cons]
            exact ht
          · show (sf, (⟨e, some a, none⟩ : Node α))
                  :: updPrev (mkChain none (a :: as2) (e1 :: es2)) a (some sf)
                = mkChain none (sf :: a :: as2) (e :: e1 :: es2)
            rw [mkChain_cons, updPrev_cons_eq,
              updPrev_of_not_mem _ (by rw [keys_mkChain as2 es2 (some a) hlen2]; exact hnd2.1)]
            rfl
          · intro b hb
            show b < sf + 1
            rcases List.mem_cons.mp hb with hb | hb
            · omega
            · exact Nat.lt_succ_of_lt (hf b hb)

theorem push_back_spec {α : Type} {s : DList α} {as : List Nat} {es : List α}
    (h : ChainInv s as es) (e : α) :
    ChainInv (push_back s e) (as ++ [s.fresh]) (es ++ [e]) := by
  obtain ⟨sh, st, sn, sf⟩ := s
  obtain ⟨hlen, hnd, hh, ht, hn, hf⟩ := h
  simp only at hh ht hn hf ⊢
  cases as with
  | nil =>
      cases es with
      | cons _ _ => simp at hlen
      | nil =>
          have hh0 : sh = none := by simpa using hh
          have ht0 : st = none := by simpa using ht
          have hn0 : sn = [] := by simpa [mkChain] using hn
          subst hh0 ht0 hn0
          show ChainInv ⟨some sf, some sf, [(sf, ⟨e, none, none⟩)], sf + 1⟩ [sf] [e]
          refine ⟨rfl, by simp, rfl, rfl, rfl, ?_⟩
          intro b hb
          show b < sf + 1
          simp at hb
          omega
  | cons a as2 =>
      cases es with
      | nil => simp at hlen
      | cons e1 es2 =>
          have hne : (a :: as2) ≠ [] := by simp
          have hlast : (a :: as2).getLast? = some ((a :: as2).getLast hne) :=
            List.getLast?_eq_getLast_of_ne_nil hne
          have ht2 : st = some ((a :: as2).getLast hne) := by rw [ht, hlast]
          subst ht2 hn
          have hsf : sf ∉ a :: as2 := by
            intro hmem
            exact absurd (hf sf hmem) (lt_irrefl sf)
          show ChainInv ⟨sh, some sf,
              updNext (mkChain none (a :: as2) (e1 :: es2)) ((a :: as2).getLast hne) (some sf)
                ++ [(sf, ⟨e, none, some ((a :: as2).getLast hne)⟩)], sf + 1⟩
            ((a :: as2) ++ [sf]) ((e1 :: es2) ++ [e])
          refine ⟨by simpa using hlen, ?_, ?_, ?_, ?_, ?_⟩
          · rw [List.nodup_append]
            refine ⟨hnd, by simp, ?_⟩
            intro b hb hmem
            simp at hmem
            subst hmem
            exact hsf hb
          · rw [hh]
            rfl
          · rw [List.getLast?_concat]
          · show updNext (mkChain none (a :: as2) (e1 :: es2)) ((a :: as2).getLast hne) (some sf)
                  ++ [(sf, ⟨e, none, some ((a :: as2).getLast hne)⟩)]
                = mkChain none ((a :: as2) ++ [sf]) ((e1 :: es2) ++ [e])
            rw [mkChain_snoc (a :: as2) (e1 :: es2) none ((a :: as2).getLast hne) sf e
              hnd hlast hlen]
          · intro b hb
            show b < sf + 1
            rcases List.mem_append.mp hb with hb | hb
            · exact Nat.lt_succ_of_lt (hf b hb)
            · simp at hb
              omega

theorem pop_front_spec {α : Type} {s : DList α} {a : Nat} {as : List Nat} {e : α}
    {es : List α} (h : ChainInv s (a :: as) (e :: es)) :
    pop_front s
        = some (some e, ⟨as.head?, as.getLast?, mkChain none as es, s.fresh⟩)
      ∧ ChainInv ⟨as.head?, as.getLast?, mkChain none as es, s.fresh⟩ as es := by
  obtain ⟨sh, st, sn, sf⟩ := s
  obtain ⟨hlen, hnd, hh, ht, hn, hf⟩ := h
  simp only at hh ht hn hf ⊢
  have hh0 : sh = some a := by simpa using hh
  subst hh0 hn
  have hlen2 : as.length = es.length := by simpa using hlen
  have hnd2 := List.nodup_cons.mp hnd
  refine ⟨?_, hlen2, hnd2.2, rfl, rfl, rfl, fun b hb => hf b (List.mem_cons_of_mem a hb)⟩
  cases as with
  | nil =>
      cases es with
      | cons _ _ => simp at hlen2
      | nil =>
          have ht0 : st = some a := by simpa using ht
          subst ht0
          show pop_front ⟨some a, some a, [(a, (⟨e, none, none⟩ : Node α))], sf⟩
              = some (some e, ⟨none, none, [], sf⟩)
          simp only [pop_front, getNode_cons_eq, updNext_cons_eq, updNext_nil,
            removeNode_cons_eq, removeNode_nil]
          simp [refCount, ptrRefs, slotRef]
  | cons b as2 =>
      cases es with
      | nil => simp at hlen2
      | cons e2 es2 =>
          have hlen3 : as2.length = es2.length := by simpa using hlen2
          have hab : a ≠ b := by
            intro hEq
            exact hnd2.1 (hEq ▸ List.mem_cons_self b as2)
          have hanotin : a ∉ b :: as2 := hnd2.1
          have hbnotin : b ∉ as2 := (List.nodup_cons.mp hnd2.2).1
          have hkeys2 : keys (mkChain (some b) as2 es2) = as2 :=
            keys_mkChain as2 es2 (some b) hlen3
          have ht2 : st = (b :: as2).getLast? := by rw [ht, List.getLast?_cons_cons]
          have htne : st ≠ some a := by
            rw [ht2]
            intro hEq
            exact hanotin (mem_of_getLast?_eq_some hEq)
          have hupd : updPrev (updNext ((a, (⟨e, some b, none⟩ : Node α))
                :: (b, ⟨e2, as2.head?, some a⟩) :: mkChain (some b) as2 es2) a none) b none
              = (a, ⟨e, none, none⟩) :: (b, ⟨e2, as2.head?, none⟩)
                :: mkChain (some b) as2 es2 := by
            rw [updNext_cons_eq,
              updNext_of_not_mem _ (by rw [keys_cons, hkeys2]; exact hanotin),
              updPrev_cons_ne hab, updPrev_cons_eq,
              updPrev_of_not_mem _ (by rw [hkeys2]; exact hbnotin)]
          have hrc : refCount ⟨some b, st,
                (a, (⟨e, none, none⟩ : Node α)) :: (b, ⟨e2, as2.head?, none⟩)
                  :: mkChain (some b) as2 es2, sf⟩ a = 0 := by
            have hhd : (as2.head? : Option Nat) ≠ some a := by
              cases as2 with
              | nil => simp
              | cons c cs =>
                  simp only [List.head?_cons, ne_eq, Option.some.injEq]
                  intro hEq
                  exact hanotin (by simp [hEq])
            have hptr : ptrRefs (mkChain (some b) as2 es2) a = 0 :=
              ptrRefs_mkChain_zero as2 es2 (some b) a
                (fun hmem => hanotin (List.mem_cons_of_mem b hmem))
                (by simpa using Ne.symm hab)
            simp only [refCount, ptrRefs]
            rw [slotRef_eq_zero (by simpa using Ne.symm hab), slotRef_eq_zero htne,
              slotRef_eq_zero hhd, hptr]
            simp [slotRef]
          show pop_front ⟨some a, st,
              (a, (⟨e, some b, none⟩ : Node α)) :: (b, ⟨e2, as2.head?, some a⟩)
                :: mkChain (some b) as2 es2, sf⟩
            = some (some e, ⟨some b, (b :: as2).getLast?,
                (b, (⟨e2, as2.head?, none⟩ : Node α)) :: mkChain (some b) as2 es2, sf⟩)
          simp only [pop_front, getNode_cons_eq, hupd, hrc]
          rw [removeNode_cons_eq, removeNode_cons_ne (Ne.symm hab),
            removeNode_of_not_mem (by rw [hkeys2]; exact fun hmem => hanotin (List.mem_cons_of_mem b hmem))]
          simp [ht2]

theorem pop_back_spec {α : Type} {s : DList α} {as : List Nat} {t : Nat} {es : List α}
    {e : α} (h : ChainInv s (as ++ [t]) (es ++ [e])) :
    pop_back s
        = some (some e, ⟨as.head?, as.getLast?, mkChain none as es, s.fresh⟩)
      ∧ ChainInv ⟨as.head?, as.getLast?, mkChain none as es, s.fresh⟩ as es := by
  obtain ⟨sh, st, sn, sf⟩ := s
  obtain ⟨hlen, hnd, hh, ht, hn, hf⟩ := h
  simp only at hh ht hn hf ⊢
  have hlen2 : as.length = es.length := by
    simp only [List.length_append, List.length_cons, List.length_nil] at hlen
    omega
  have hndsplit := List.nodup_append.mp hnd
  have hndas : as.Nodup := hndsplit.1
  have htnotin : t ∉ as := by
    intro hmem
    exact hndsplit.2.2 hmem (by simp)
  have ht0 : st = some t := by rw [ht, List.getLast?_concat]
  subst ht0 hn
  refine ⟨?_, hlen2, hndas, rfl, rfl, rfl,
    fun b hb => hf b (List.mem_append_left [t] hb)⟩
  cases as with
  | nil =>
      cases es with
      | cons _ _ => simp at hlen2
      | nil =>
          show pop_back ⟨sh, some t, [(t, (⟨e, none, none⟩ : Node α))], sf⟩
              = some (some e, ⟨none, none, [], sf⟩)
          have hh0 : sh = some t := by simpa using hh
          subst hh0
          simp only [pop_back, getNode_cons_eq, updPrev_cons_eq, updPrev_nil,
            removeNode_cons_eq, removeNode_nil]
          simp [refCount, ptrRefs, slotRef]
  | cons a as2 =>
      have hne : (a :: as2) ≠ [] := by simp
      have hlast : (a :: as2).getLast? = some ((a :: as2).getLast hne) :=
        List.getLast?_eq_getLast_of_ne_nil hne
      have hntmem : (a :: as2).getLast hne ∈ a :: as2 := List.getLast_mem hne
      have htnt : t ≠ (a :: as2).getLast hne := by
        intro hEq
        exact htnotin (hEq ▸ hntmem)
      have hkeysC : keys (mkChain none (a :: as2) es) = a :: as2 :=
        keys_mkChain (a :: as2) es none hlen2
      have hsnoc := mkChain_snoc (a :: as2) es none ((a :: as2).getLast hne) t e
        hndas hlast hlen2
      have hh0 : sh = some a := by simpa using hh
      subst hh0
      have htnotinU : t ∉ keys (updNext (mkChain none (a :: as2) es)
          ((a :: as2).getLast hne) (some t)) := by
        rw [keys_updNext, hkeysC]
        exact htnotin
      have hget : getNode (updNext (mkChain none (a :: as2) es)
              ((a :: as2).getLast hne) (some t)
            ++ [(t, (⟨e, none, some ((a :: as2).getLast hne)⟩ : Node α))]) t
          = some ⟨e, none, some ((a :: as2).getLast hne)⟩ := by
        rw [getNode_append_right _ _ _ htnotinU, getNode_cons_eq]
      have hupd : updNext (updPrev (updNext (mkChain none (a :: as2) es)
              ((a :: as2).getLast hne) (some t)
            ++ [(t, (⟨e, none, some ((a :: as2).getLast hne)⟩ : Node α))]) t none)
            ((a :: as2).getLast hne) none
          = mkChain none (a :: as2) es ++ [(t, ⟨e, none, none⟩)] := by
        rw [updPrev_append, updPrev_of_not_mem _ htnotinU, updPrev_cons_eq, updPrev_nil,
          updNext_append, updNext_updNext,
          updNext_eq_self (mkChain_last_next (a :: as2) es none ((a :: as2).getLast hne)
            hndas hlast),
          updNext_cons_ne htnt, updNext_nil]
      have hrc : refCount ⟨some a, some ((a :: as2).getLast hne),
            mkChain none (a :: as2) es ++ [(t, (⟨e, none, none⟩ : Node α))], sf⟩ t = 0 := by
        have hta : t ≠ a := by
          intro hEq
          exact htnotin (hEq ▸ List.mem_cons_self a as2)
        have hptr : ptrRefs (mkChain none (a :: as2) es) t = 0 :=
          ptrRefs_mkChain_zero (a :: as2) es none t htnotin (by simp)
        simp only [refCount, ptrRefs_append, ptrRefs, hptr]
        rw [slotRef_eq_zero (by simpa using Ne.symm hta),
          slotRef_eq_zero (by simpa using Ne.symm htnt)]
        simp [slotRef]
      have hrem : removeNode (mkChain none (a :: as2) es
            ++ [(t, (⟨e, none, none⟩ : Node α))]) t
          = mkChain none (a :: as2) es := by
        rw [removeNode_append, removeNode_of_not_mem (by rw [hkeysC]; exact htnotin),
          removeNode_cons_eq, removeNode_nil, List.append_nil]
      show pop_back ⟨some a, some t, mkChain none ((a :: as2) ++ [t]) (es ++ [e]), sf⟩
          = some (some e, ⟨some a, (a :: as2).getLast?, mkChain none (a :: as2) es, sf⟩)
      rw [hsnoc]
      simp only [pop_back, hget, hupd, hrc, hrem]
      simp [hlast]

theorem pop_front_none {α : Type} {s : DList α} (h : s.head = none) :
    pop_front s = some (none, s) := by
  obtain ⟨sh, st, sn, sf⟩ := s
  simp only at h
  subst h
  rfl

theorem pop_back_none {α : Type} {s : DList α} (h : s.tail = none) :
    pop_back s = some (none, s) := by
  obtain ⟨sh, st, sn, sf⟩ := s
  simp only at h
  subst h
  rfl

theorem chainInv_new {α : Type} : ChainInv (DList.new : DList α) [] [] :=
  ⟨rfl, List.nodup_nil, rfl, rfl, rfl, by simp⟩

theorem chainInv_head_nil {α : Type} {s : DList α} {es : List α}
    (h : ChainInv s [] es) : s.head = none ∧ s.tail = none := by
  obtain ⟨_, _, hh, ht, _, _⟩ := h
  exact ⟨by simpa using hh, by simpa using ht⟩

/-- Every state reachable through the public API is a well-formed chain. -/
theorem reachable_wf {α : Type} {s : DList α} (h : Reachable s) :
    ∃ as es, ChainInv s as es := by
  induction h with
  | init => exact ⟨[], [], chainInv_new⟩
  | pushF s e _ ih =>
      obtain ⟨as, es, hInv⟩ := ih
      exact ⟨s.fresh :: as, e :: es, push_front_spec hInv e⟩
  | pushB s e _ ih =>
      obtain ⟨as, es, hInv⟩ := ih
      exact ⟨as ++ [s.fresh], es ++ [e], push_back_spec hInv e⟩
  | popF s v t _ heq ih =>
      obtain ⟨as, es, hInv⟩ := ih
      cases as with
      | nil =>
          have hempty := pop_front_none (chainInv_head_nil hInv).1
          have hvt : (none : Option α) = v ∧ s = t := by
            have := hempty.symm.trans heq
            simpa using this
          rw [← hvt.2]
          exact ⟨[], es, hInv⟩
      | cons a as2 =>
          cases es with
          | nil => simp [ChainInv] at hInv
          | cons e1 es2 =>
              have hspec := pop_front_spec hInv
              have hvt := hspec.1.symm.trans heq
              simp only [Option.some.injEq, Prod.mk.injEq] at hvt
              rw [← hvt.2]
              exact ⟨as2, es2, hspec.2⟩
  | popB s v t _ heq ih =>
      obtain ⟨as, es, hInv⟩ := ih
      rcases List.eq_nil_or_concat as with rfl | ⟨as0, t0, rfl⟩
      · have hempty := pop_back_none (chainInv_head_nil hInv).2
        have hvt : (none : Option α) = v ∧ s = t := by
          have := hempty.symm.trans heq
          simpa using this
        rw [← hvt.2]
        exact ⟨[], es, hInv⟩
      · rcases List.eq_nil_or_concat es with rfl | ⟨es0, e0, rfl⟩
        · obtain ⟨hlen, _⟩ := hInv
          simp at hlen
        · simp only [List.concat_eq_append] at hInv
          have hspec := pop_back_spec hInv
          have hvt := hspec.1.symm.trans heq
          simp only [Option.some.injEq, Prod.mk.injEq] at hvt
          rw [← hvt.2]
          exact ⟨as0, es0, hspec.2⟩

/-- A front-end operation: push_front of a value, or pop_front. -/
inductive FOp (α : Type) where
  | push : α → FOp α
  | pop : FOp α

/-- Run a sequence of push_front/pop_front operations on the deque,
recording each pop result; none propagates an internal panic. -/
def runFront {α : Type} : List (FOp α) → DList α → Option (List (Option α) × DList α)
  | [], s => some ([], s)
  | FOp.push e :: ops, s => runFront ops (push_front s e)
  | FOp.pop :: ops, s =>
      match pop_front s with
      | none => none
      | some (v, t) =>
          match runFront ops t with
          | none => none
          | some (outs, u) => some (v :: outs, u)

/-- The pure LIFO stack semantics: push conses, pop removes the most
recently pushed remaining value. -/
def runStack {α : Type} : List (FOp α) → List α → List (Option α) × List α
  | [], st => ([], st)
  | FOp.push e :: ops, st => runStack ops (e :: st)
  | FOp.pop :: ops, [] =>
      ((none : Option α) :: (runStack ops []).1, (runStack ops ([] : List α)).2)
  | FOp.pop :: ops, v :: rest =>
      (some v :: (runStack ops rest).1, (runStack ops rest).2)

/-- push_front each value of vs in order. -/
def push_front_all {α : Type} : DList α → List α → DList α
  | s, [] => s
  | s, v :: vs => push_front_all (push_front s v) vs

/-- pop_back n times, recording the popped values. -/
def pop_back_n {α : Type} : Nat → DList α → Option (List (Option α) × DList α)
  | 0, s => some ([], s)
  | k + 1, s =>
      match pop_back s with
      | none => none
      | some (v, t) =>
          match pop_back_n k t with
          | none => none
          | some (outs, u) => some (v :: outs, u)

/-- The Drop implementation: while self.pop_front().is_some() {}.  Runs
with explicit fuel; returns the number of nodes released
(= successful pops) and the final state, or none if the fuel is
exhausted before the loop exits or a pop panics. -/
def drop_loop {α : Type} : Nat → DList α → Option (Nat × DList α)
  | 0, _ => none
  | fuel + 1, s =>
      match pop_front s with
      | none => none
      | some (none, t) => some (0, t)
      | some (some _, t) =>
          match drop_loop fuel t with
          | none => none
          | some (k, u) => some (k + 1, u)

/-- The dynamic borrow state of one RefCell: number of live shared
borrows (Ref guards) and whether a mutable borrow (RefMut guard) is
live.  Models std::cell::RefCell's runtime borrow flag. -/
structure BorrowFlag where
  shared : Nat
  mutb : Bool
deriving DecidableEq, Repr

/-- A live view exists on the cell: some Ref or RefMut guard is alive. -/
def BorrowFlag.isLive (f : BorrowFlag) : Prop := f.shared ≠ 0 ∨ f.mutb = true

instance (f : BorrowFlag) : Decidable f.isLive := by
  unfold BorrowFlag.isLive
  exact inferInstance

/-- Borrow state of the node at address a (free when unlisted). -/
def flagAt : List (Nat × BorrowFlag) → Nat → BorrowFlag
  | [], _ => ⟨0, false⟩
  | (b, f) :: rest, a => if b = a then f else flagAt rest a

/-- Record a new borrow state for address a. -/
def setFlag (br : List (Nat × BorrowFlag)) (a : Nat) (f : BorrowFlag) :
    List (Nat × BorrowFlag) :=
  (a, f) :: br.filter (fun pr => pr.1 != a)

/-- List::peek_front_mut with the per-node RefCell borrow flags made
explicit: node.borrow_mut() panics (none) unless the head node's flag is
free; on success the mutable view is acquired (flag set to mutably
borrowed) and the element behind the RefMut is returned. -/
def peek_front_mut {α : Type} (s : DList α) (br : List (Nat × BorrowFlag)) :
    Option (Option α × List (Nat × BorrowFlag)) :=
  match s.head with
  | none => some (none, br)
  | some a =>
      if (flagAt br a).shared = 0 ∧ (flagAt br a).mutb = false then
        match getNode s.nodes a with
        | none => none
        | some n => some (some n.elem, setFlag br a ⟨0, true⟩)
      else none

/-- List::peek_back_mut, mirror image. -/
def peek_back_mut {α : Type} (s : DList α) (br : List (Nat × BorrowFlag)) :
    Option (Option α × List (Nat × BorrowFlag)) :=
  match s.tail with
  | none => some (none, br)
  | some a =>
      if (flagAt br a).shared = 0 ∧ (flagAt br a).mutb = false then
        match getNode s.nodes a with
        | none => none
        | some n => some (some n.elem, setFlag br a ⟨0, true⟩)
      else none

/-- Link<T> = Option<Rc<Node<T>>> of src/persistent.rs, with Node
inlined (Rc sharing is transparent in a pure embedding): either no
node, or a node holding an element and the next link. -/
inductive PLink (α : Type) where
  | nil : PLink α
  | node : α → PLink α → PLink α
deriving DecidableEq, Repr

/-- The persistent singly-linked list: struct List<T> { head: Link<T> }. -/
structure PList (α : Type) where
  head : PLink α
deriving DecidableEq, Repr

/-- List::new() of src/persistent.rs. -/
def PList.new {α : Type} : PList α := ⟨PLink.nil⟩

/-- List::append: new list whose head node holds elem and whose next is
a clone of self.head. -/
def PList.append {α : Type} (l : PList α) (elem : α) : PList α :=
  ⟨PLink.node elem l.head⟩

/-- List::tail: the list with the first element removed (clone of the
second link if it exists). -/
def PList.tail {α : Type} (l : PList α) : PList α :=
  ⟨match l.head with
   | PLink.nil => PLink.nil
   | PLink.node _ n => n⟩

/-- List::head: the first element, if any. -/
def PList.headElem {α : Type} (l : PList α) : Option α :=
  match l.head with
  | PLink.nil => none
  | PLink.node e _ => some e

/-- The element sequence produced by List::iter. -/
def PLink.toList {α : Type} : PLink α → List α
  | PLink.nil => []
  | PLink.node e n => e :: PLink.toList n

/-- Iter over a PList from its head. -/
def PList.iterList {α : Type} (l : PList α) : List α := PLink.toList l.head

theorem runFront_sim {α : Type} :
    ∀ (ops : List (FOp α)) (s : DList α) (as : List Nat) (es : List α),
      ChainInv s as es →
      ∃ t as2, runFront ops s = some ((runStack ops es).1, t)
        ∧ ChainInv t as2 (runStack ops es).2
  | [], s, as, es, hInv => ⟨s, as, rfl, hInv⟩
  | FOp.push e :: ops, s, as, es, hInv => by
      obtain ⟨t, as2, hrun, hInv2⟩ :=
        runFront_sim ops (push_front s e) (s.fresh :: as) (e :: es)
          (push_front_spec hInv e)
      exact ⟨t, as2, hrun, hInv2⟩
  | FOp.pop :: ops, s, as, es, hInv => by
      cases as with
      | nil =>
          cases es with
          | cons _ _ =>
              obtain ⟨hlen, _⟩ := hInv
              simp at hlen
          | nil =>
              have hpop := pop_front_none (chainInv_head_nil hInv).1
              obtain ⟨t, as2, hrun, hInv2⟩ := runFront_sim ops s [] [] hInv
              refine ⟨t, as2, ?_, hInv2⟩
              simp only [runFront, hpop, hrun, runStack]
      | cons a as2 =>
          cases es with
          | nil =>
              obtain ⟨hlen, _⟩ := hInv
              simp at hlen
          | cons e1 es2 =>
              have hspec := pop_front_spec hInv
              obtain ⟨t, as3, hrun, hInv2⟩ :=
                runFront_sim ops _ as2 es2 hspec.2
              refine ⟨t, as3, ?_, hInv2⟩
              simp only [runFront, hspec.1, hrun, runStack]

theorem push_front_all_spec {α : Type} :
    ∀ (vs : List α) (s : DList α) (as : List Nat) (es : List α),
      ChainInv s as es →
      ∃ as2, ChainInv (push_front_all s vs) as2 (vs.reverse ++ es)
  | [], s, as, es, hInv => ⟨as, by simpa using hInv⟩
  | v :: vs, s, as, es, hInv => by
      obtain ⟨as2, hInv2⟩ := push_front_all_spec vs (push_front s v) (s.fresh :: as)
        (v :: es) (push_front_spec hInv v)
      refine ⟨as2, ?_⟩
      have : (v :: vs).reverse ++ es = vs.reverse ++ (v :: es) := by
        simp
      rw [this]
      exact hInv2

theorem pop_back_n_spec {α : Type} :
    ∀ (n : Nat) (es : List α) (as : List Nat) (s : DList α),
      es.length = n → ChainInv s as es →
      ∃ t, pop_back_n n s = some (es.reverse.map some, t) ∧ ChainInv t [] [] := by
  intro n
  induction n with
  | zero =>
      intro es as s hlen hInv
      have hes : es = [] := List.length_eq_zero.mp hlen
      subst hes
      have has : as = [] := by
        obtain ⟨hl, _⟩ := hInv
        exact List.length_eq_zero.mp hl
      subst has
      exact ⟨s, rfl, hInv⟩
  | succ n ih =>
      intro es as s hlen hInv
      rcases List.eq_nil_or_concat es with rfl | ⟨es0, e0, rfl⟩
      · simp at hlen
      · rcases List.eq_nil_or_concat as with rfl | ⟨as0, t0, rfl⟩
        · obtain ⟨hl, _⟩ := hInv
          simp at hl
        · simp only [List.concat_eq_append] at hInv hlen
          have hspec := pop_back_spec hInv
          have hlen0 : es0.length = n := by
            simp at hlen
            omega
          obtain ⟨t, hrun, hInv2⟩ := ih es0 as0 _ hlen0 hspec.2
          refine ⟨t, ?_, hInv2⟩
          simp only [pop_back_n, hspec.1, hrun]
          simp

theorem drop_loop_spec {α : Type} :
    ∀ (as : List Nat) (es : List α) (s : DList α),
      ChainInv s as es →
      ∃ t, drop_loop (as.length + 1) s = some (as.length, t) ∧ ChainInv t [] []
  | [], es, s, hInv => by
      cases es with
      | cons _ _ =>
          obtain ⟨hlen, _⟩ := hInv
          simp at hlen
      | nil =>
          have hpop := pop_front_none (chainInv_head_nil hInv).1
          refine ⟨s, ?_, hInv⟩
          simp [drop_loop, hpop]
  | a :: as2, es, s, hInv => by
      cases es with
      | nil =>
          obtain ⟨hlen, _⟩ := hInv
          simp at hlen
      | cons e1 es2 =>
          have hspec := pop_front_spec hInv
          obtain ⟨t, hrun, hInv2⟩ := drop_loop_spec as2 es2 _ hspec.2
          refine ⟨t, ?_, hInv2⟩
          show (match pop_front s with
                | none => none
                | some (none, u) => some (0, u)
                | some (some _, u) =>
                    match drop_loop (as2.length + 1) u with
                    | none => none
                    | some (k, u2) => some (k + 1, u2))
              = some ((a :: as2).length, t)
          rw [hspec.1]
          simp [hrun]

theorem peek_front_value {α : Type} {s : DList α} {as : List Nat} {es : List α}
    (h : ChainInv s as es) : peek_front s = es.head? := by
  obtain ⟨sh, st, sn, sf⟩ := s
  obtain ⟨hlen, hnd, hh, ht, hn, hf⟩ := h
  simp only at hh ht hn ⊢
  cases as with
  | nil =>
      cases es with
      | cons _ _ => simp at hlen
      | nil =>
          have hh0 : sh = none := by simpa using hh
          subst hh0 hn
          rfl
  | cons a as2 =>
      cases es with
      | nil => simp at hlen
      | cons e1 es2 =>
          have hh0 : sh = some a := by simpa using hh
          subst hh0 hn
          show (getNode ((a, (⟨e1, as2.head?, none⟩ : Node α))
              :: mkChain (some a) as2 es2) a).map Node.elem = some e1
          rw [getNode_cons_eq]
          rfl

theorem peek_back_value {α : Type} {s : DList α} {as : List Nat} {es : List α}
    (h : ChainInv s as es) : peek_back s = es.getLast? := by
  obtain ⟨sh, st, sn, sf⟩ := s
  obtain ⟨hlen, hnd, hh, ht, hn, hf⟩ := h
  simp only at hh ht hn ⊢
  rcases List.eq_nil_or_concat as with rfl | ⟨as0, t0, rfl⟩
  · cases es with
    | cons _ _ => simp at hlen
    | nil =>
        have ht0 : st = none := by simpa using ht
        subst ht0 hn
        rfl
  · rcases List.eq_nil_or_concat es with rfl | ⟨es0, e0, rfl⟩
    · simp at hlen
    · simp only [List.concat_eq_append] at hlen hnd hh ht hn ⊢
      have hlen2 : as0.length = es0.length := by
        simp at hlen
        omega
      have ht0 : st = some t0 := by rw [ht, List.getLast?_concat]
      subst ht0 hn
      rw [List.getLast?_concat]
      cases as0 with
      | nil =>
          cases es0 with
          | cons _ _ => simp at hlen2
          | nil =>
              show (getNode [(t0, (⟨e0, none, none⟩ : Node α))] t0).map Node.elem = some e0
              rw [getNode_cons_eq]
              rfl
      | cons a as2 =>
          have hne : (a :: as2) ≠ [] := by simp
          have hndsplit := List.nodup_append.mp hnd
          have htnotin : t0 ∉ a :: as2 := by
            intro hmem
            exact hndsplit.2.2 hmem (by simp)
          have hlast : (a :: as2).getLast? = some ((a :: as2).getLast hne) :=
            List.getLast?_eq_getLast_of_ne_nil hne
          have hsnoc := mkChain_snoc (a :: as2) es0 none ((a :: as2).getLast hne) t0 e0
            hndsplit.1 hlast hlen2
          show (getNode (mkChain none ((a :: as2) ++ [t0]) (es0 ++ [e0])) t0).map Node.elem
              = some e0
          rw [hsnoc, getNode_append_right _ _ _
            (by rw [keys_updNext, keys_mkChain (a :: as2) es0 none hlen2]; exact htnotin),
            getNode_cons_eq]
          rfl

/-- The three-push scenario state of the spec: push_front(1), 2, 3. -/
def sampleDeque : DList Nat :=
  push_front (push_front (push_front DList.new 1) 2) 3

theorem sampleDeque_reachable : Reachable sampleDeque := by
  unfold sampleDeque
  exact Reachable.pushF _ 3 (Reachable.pushF _ 2 (Reachable.pushF _ 1 Reachable.init))

/-- C1: starting from the empty deque, any sequence of push_front/pop_front
operations produces exactly the pop results of the pure LIFO stack
semantics (each successful pop_front returns the most recently pushed
value not yet popped); and pushing a whole sequence with push_front and
then removing with pop_back returns the values in insertion (FIFO)
order. -/
theorem c1_front_lifo_and_mixed_fifo {α : Type} (ops : List (FOp α)) (vs : List α) :
    (∃ t, runFront ops (DList.new : DList α) = some ((runStack ops []).1, t))
      ∧ (∃ t, pop_back_n vs.length (push_front_all (DList.new : DList α) vs)
          = some (vs.map some, t)) := by
  constructor
  · obtain ⟨t, as2, hrun, _⟩ := runFront_sim ops DList.new [] [] chainInv_new
    exact ⟨t, hrun⟩
  · obtain ⟨as2, hInv⟩ := push_front_all_spec vs DList.new [] [] chainInv_new
    have hInv2 : ChainInv (push_front_all DList.new vs) as2 vs.reverse := by
      simpa using hInv
    obtain ⟨t, hrun, _⟩ := pop_back_n_spec vs.reverse.length vs.reverse as2 _ rfl hInv2
    refine ⟨t, ?_⟩
    have hl : vs.length = vs.reverse.length := by simp
    rw [hl]
    simpa using hrun

/-- C2: in every reachable state the heap holds exactly one node per
element, and every node in the heap has structural reference count
(Rc strong count) exactly two: head/tail slots and neighbour links
account for precisely two owners per node. -/
theorem c2_exactly_two_owners {α : Type} (s : DList α) (h : Reachable s) :
    ∃ as es, ChainInv s as es ∧ s.nodes.length = es.length
      ∧ ∀ pr ∈ s.nodes, refCount s pr.1 = 2 := by
  obtain ⟨as, es, hInv⟩ := reachable_wf h
  refine ⟨as, es, hInv, ?_, ?_⟩
  · obtain ⟨hlen, _, _, _, hn, _⟩ := hInv
    rw [hn, length_mkChain as es none hlen, hlen]
  · intro pr hpr
    have hlen := hInv.1
    have hn := hInv.2.2.2.2.1
    have hkey : pr.1 ∈ as := by
      have hmem : pr.1 ∈ keys s.nodes := List.mem_map_of_mem Prod.fst hpr
      rw [hn, keys_mkChain as es none hlen] at hmem
      exact hmem
    exact refCount_eq_two hInv hkey

theorem c2_witness :
    ∃ as es, ChainInv sampleDeque as es ∧ sampleDeque.nodes.length = es.length
      ∧ ∀ pr ∈ sampleDeque.nodes, refCount sampleDeque pr.1 = 2 :=
  c2_exactly_two_owners sampleDeque sampleDeque_reachable

/-- C3: pop_front on an empty deque returns the absent value rather than
failing, and so does pop_back; this holds in every reachable empty state,
both the fresh list and a list drained back to empty. -/
theorem c3_pop_empty_returns_none {α : Type} (s : DList α) (h : Reachable s)
    (he : s.head = none) :
    pop_front s = some (none, s) ∧ pop_back s = some (none, s) := by
  obtain ⟨as, es, hInv⟩ := reachable_wf h
  have has : as = [] := by
    obtain ⟨_, _, hh, _, _, _⟩ := hInv
    exact List.head?_eq_none_iff.mp (by rw [← hh]; exact he)
  subst has
  exact ⟨pop_front_none he, pop_back_none (chainInv_head_nil hInv).2⟩

theorem c3_witness :
    pop_front (DList.mk none none [] 1 : DList Nat)
        = some (none, DList.mk none none [] 1)
      ∧ pop_back (DList.mk none none [] 1 : DList Nat)
          = some (none, DList.mk none none [] 1) :=
  c3_pop_empty_returns_none (DList.mk none none [] 1)
    (Reachable.popF (push_front DList.new 5) (some 5) (DList.mk none none [] 1)
      (Reachable.pushF DList.new 5 Reachable.init) (by decide))
    rfl

/-- C4: from the empty deque, push_back(1) then push_back(2); pop_front
returns 1 with the tail slot still on the node holding 2 (peek_back sees
2); pop_back then returns 2 and leaves both head and tail slots absent. -/
theorem c4_push_back_pop_scenario :
    pop_front (push_back (push_back (DList.new : DList Nat) 1) 2)
        = some (some 1, DList.mk (some 1) (some 1) [(1, Node.mk 2 none none)] 2)
      ∧ (DList.mk (some 1) (some 1) [(1, Node.mk 2 none none)] 2 : DList Nat).tail = some 1
      ∧ peek_back (DList.mk (some 1) (some 1) [(1, Node.mk 2 none none)] 2 : DList Nat)
          = some 2
      ∧ pop_back (DList.mk (some 1) (some 1) [(1, Node.mk 2 none none)] 2 : DList Nat)
          = some (some 2, DList.mk none none [] 2)
      ∧ (DList.mk none none [] 2 : DList Nat).head = none
      ∧ (DList.mk none none [] 2 : DList Nat).tail = none := by
  decide

/-- C5: peek_front and peek_back leave the list unchanged, report
exactly the value the corresponding pop would return next, and report
the absent value on an empty list. -/
theorem c5_peek_frame_and_pop_agreement {α : Type} (s : DList α) (h : Reachable s) :
    (peek_front_op s).2 = s ∧ (peek_back_op s).2 = s
      ∧ (∃ t, pop_front s = some ((peek_front_op s).1, t))
      ∧ (∃ t, pop_back s = some ((peek_back_op s).1, t))
      ∧ (s.head = none → (peek_front_op s).1 = none ∧ (peek_back_op s).1 = none) := by
  obtain ⟨as, es, hInv⟩ := reachable_wf h
  have hpf : (peek_front_op s).1 = es.head? := peek_front_value hInv
  have hpb : (peek_back_op s).1 = es.getLast? := peek_back_value hInv
  refine ⟨rfl, rfl, ?_, ?_, ?_⟩
  · cases as with
    | nil =>
        cases es with
        | cons _ _ =>
            obtain ⟨hlen, _⟩ := hInv
            simp at hlen
        | nil =>
            refine ⟨s, ?_⟩
            rw [hpf]
            exact pop_front_none (chainInv_head_nil hInv).1
    | cons a as2 =>
        cases es with
        | nil =>
            obtain ⟨hlen, _⟩ := hInv
            simp at hlen
        | cons e1 es2 =>
            rw [hpf]
            exact ⟨_, (pop_front_spec hInv).1⟩
  · rcases List.eq_nil_or_concat as with rfl | ⟨as0, t0, rfl⟩
    · cases es with
      | cons _ _ =>
          obtain ⟨hlen, _⟩ := hInv
          simp at hlen
      | nil =>
          refine ⟨s, ?_⟩
          rw [hpb]
          exact pop_back_none (chainInv_head_nil hInv).2
    · rcases List.eq_nil_or_concat es with rfl | ⟨es0, e0, rfl⟩
      · obtain ⟨hlen, _⟩ := hInv
        simp at hlen
      · simp only [List.concat_eq_append] at hInv hpb
        rw [hpb, List.getLast?_concat]
        exact ⟨_, (pop_back_spec hInv).1⟩
  · intro he
    have has : as = [] := by
      obtain ⟨_, _, hh, _, _, _⟩ := hInv
      exact List.head?_eq_none_iff.mp (by rw [← hh]; exact he)
    subst has
    have hes : es = [] := by
      obtain ⟨hlen, _⟩ := hInv
      exact List.length_eq_zero.mp (by simpa using hlen.symm)
    subst hes
    constructor
    · rw [hpf]
      rfl
    · rw [hpb]
      rfl

theorem c5_witness :
    (peek_front_op sampleDeque).2 = sampleDeque ∧ (peek_back_op sampleDeque).2 = sampleDeque
      ∧ (∃ t, pop_front sampleDeque = some ((peek_front_op sampleDeque).1, t))
      ∧ (∃ t, pop_back sampleDeque = some ((peek_back_op sampleDeque).1, t))
      ∧ (sampleDeque.head = none →
          (peek_front_op sampleDeque).1 = none ∧ (peek_back_op sampleDeque).1 = none) :=
  c5_peek_frame_and_pop_agreement sampleDeque sampleDeque_reachable

/-- C6: in every reachable state the head and tail slots are both absent
or both present; push on an empty list sets both slots, and popping the
last element (head and tail on the same node) clears both slots. -/
theorem c6_two_state_invariant {α : Type} (s : DList α) (h : Reachable s) :
    (s.head = none ↔ s.tail = none)
      ∧ (∀ e : α, s.head = none →
          (push_front s e).head.isSome = true ∧ (push_front s e).tail.isSome = true
            ∧ (push_back s e).head.isSome = true ∧ (push_back s e).tail.isSome = true)
      ∧ (∀ (v : α) (t : DList α), s.head = s.tail → pop_front s = some (some v, t) →
          t.head = none ∧ t.tail = none) := by
  obtain ⟨as, es, hInv⟩ := reachable_wf h
  have hh := hInv.2.2.1
  have ht := hInv.2.2.2.1
  refine ⟨?_, ?_, ?_⟩
  · rw [hh, ht]
    constructor
    · intro hx
      rw [List.head?_eq_none_iff.mp hx]
      rfl
    · intro hx
      rw [List.getLast?_eq_none_iff.mp hx]
      rfl
  · intro e he
    have hten : s.tail = none := by
      rw [ht]
      rw [hh] at he
      rw [List.head?_eq_none_iff.mp he]
      rfl
    obtain ⟨sh, st, sn, sf⟩ := s
    simp only at he hten
    subst he hten
    exact ⟨rfl, rfl, rfl, rfl⟩
  · intro v t hext heq
    cases as with
    | nil =>
        rw [pop_front_none (chainInv_head_nil hInv).1] at heq
        simp at heq
    | cons a as2 =>
        cases es with
        | nil =>
            have hlen := hInv.1
            simp at hlen
        | cons e1 es2 =>
            have hspec := pop_front_spec hInv
            have hvt := hspec.1.symm.trans heq
            simp only [Option.some.injEq, Prod.mk.injEq] at hvt
            have has2 : as2 = [] := by
              have hgl : (a :: as2).getLast? = some a := by
                calc (a :: as2).getLast? = s.tail := ht.symm
                  _ = s.head := hext.symm
                  _ = (a :: as2).head? := hh
                  _ = some a := rfl
              exact (getLast?_cons_eq_self_iff hInv.2.1).mp hgl
            subst has2
            rw [← hvt.2]
            exact ⟨rfl, rfl⟩

theorem c6_witness :
    (sampleDeque.head = none ↔ sampleDeque.tail = none)
      ∧ (∀ e : Nat, sampleDeque.head = none →
          (push_front sampleDeque e).head.isSome = true
            ∧ (push_front sampleDeque e).tail.isSome = true
            ∧ (push_back sampleDeque e).head.isSome = true
            ∧ (push_back sampleDeque e).tail.isSome = true)
      ∧ (∀ (v : Nat) (t : DList Nat), sampleDeque.head = sampleDeque.tail →
          pop_front sampleDeque = some (some v, t) → t.head = none ∧ t.tail = none) :=
  c6_two_state_invariant sampleDeque sampleDeque_reachable

/-- C7: tearing a reachable deque down with the Drop loop (repeated
pop_front) terminates within one iteration per node plus one, releases
exactly one node per element (the release count equals the node count),
and ends in the empty state. -/
theorem c7_drop_iterative_exact_releases {α : Type} (s : DList α) (h : Reachable s) :
    ∃ t, drop_loop (s.nodes.length + 1) s = some (s.nodes.length, t)
      ∧ t.nodes = [] ∧ t.head = none ∧ t.tail = none := by
  obtain ⟨as, es, hInv⟩ := reachable_wf h
  have hlen : s.nodes.length = as.length := by
    have hl := hInv.1
    have hn := hInv.2.2.2.2.1
    rw [hn, length_mkChain as es none hl]
  obtain ⟨t, hrun, hInv2⟩ := drop_loop_spec as es s hInv
  refine ⟨t, ?_, ?_, (chainInv_head_nil hInv2).1, (chainInv_head_nil hInv2).2⟩
  · rw [hlen]
    exact hrun
  · have hn2 := hInv2.2.2.2.2.1
    simpa [mkChain] using hn2

theorem c7_witness :
    ∃ t, drop_loop (sampleDeque.nodes.length + 1) sampleDeque
        = some (sampleDeque.nodes.length, t)
      ∧ t.nodes = [] ∧ t.head = none ∧ t.tail = none :=
  c7_drop_iterative_exact_releases sampleDeque sampleDeque_reachable

/-- C8: requesting a mutable view through peek_front_mut or
peek_back_mut while any live view (shared or mutable) of that same node
exists fails immediately (RefCell::borrow_mut panic, modelled as none)
instead of handing out a second view; the check is the node's own
dynamic borrow flag. -/
theorem c8_peek_mut_fails_on_live_view {α : Type} (s : DList α)
    (br : List (Nat × BorrowFlag)) (a : Nat) :
    (s.head = some a → (flagAt br a).isLive → peek_front_mut s br = none)
      ∧ (s.tail = some a → (flagAt br a).isLive → peek_back_mut s br = none) := by
  have hcond : (flagAt br a).isLive →
      ¬((flagAt br a).shared = 0 ∧ (flagAt br a).mutb = false) := by
    intro hlive hc
    rcases hlive with h1 | h1
    · exact h1 hc.1
    · rw [hc.2] at h1
      exact Bool.noConfusion h1
  constructor
  · intro hh hlive
    obtain ⟨sh, st, sn, sf⟩ := s
    simp only at hh
    subst hh
    simp only [peek_front_mut]
    rw [if_neg (hcond hlive)]
  · intro ht hlive
    obtain ⟨sh, st, sn, sf⟩ := s
    simp only at ht
    subst ht
    simp only [peek_back_mut]
    rw [if_neg (hcond hlive)]

theorem c8_witness :
    peek_front_mut (DList.mk (some 0) (some 0) [(0, Node.mk (5 : Nat) none none)] 1)
        [(0, BorrowFlag.mk 1 false)] = none
      ∧ peek_back_mut (DList.mk (some 0) (some 0) [(0, Node.mk (5 : Nat) none none)] 1)
          [(0, BorrowFlag.mk 1 false)] = none := by
  have h := c8_peek_mut_fails_on_live_view
      (DList.mk (some 0) (some 0) [(0, Node.mk (5 : Nat) none none)] 1)
      [(0, BorrowFlag.mk 1 false)] 0
  exact ⟨h.1 rfl (Or.inl (by decide)), h.2 rfl (Or.inl (by decide))⟩

/-- C9: in every reachable state neither pop_front nor pop_back can hit
an internal panic: at the moment of extraction the detached node has no
remaining structural owner, so the modelled
Rc::try_unwrap(..).ok().unwrap() path always succeeds and the element is
returned by value. -/
theorem c9_pop_never_fails {α : Type} (s : DList α) (h : Reachable s) :
    pop_front s ≠ none ∧ pop_back s ≠ none := by
  obtain ⟨as, es, hInv⟩ := reachable_wf h
  constructor
  · cases as with
    | nil =>
        rw [pop_front_none (chainInv_head_nil hInv).1]
        simp
    | cons a as2 =>
        cases es with
        | nil =>
            have hlen := hInv.1
            simp at hlen
        | cons e1 es2 =>
            rw [(pop_front_spec hInv).1]
            simp
  · rcases List.eq_nil_or_concat as with rfl | ⟨as0, t0, rfl⟩
    · rw [pop_back_none (chainInv_head_nil hInv).2]
      simp
    · rcases List.eq_nil_or_concat es with rfl | ⟨es0, e0, rfl⟩
      · have hlen := hInv.1
        simp at hlen
      · simp only [List.concat_eq_append] at hInv
        rw [(pop_back_spec hInv).1]
        simp

theorem c9_witness :
    pop_front sampleDeque ≠ none ∧ pop_back sampleDeque ≠ none :=
  c9_pop_never_fails sampleDeque sampleDeque_reachable

/-- C10: for the persistent list, append(x) yields a list whose head is
x and whose tail is the original list (same element sequence under
iteration — in fact the very same list, since append only wraps a shared
link); tail of the empty list is again empty with no head element.
append, tail and head are pure and leave the receiver unchanged. -/
theorem c10_persistent_append_tail_head {α : Type} (l : PList α) (x : α) :
    (l.append x).headElem = some x
      ∧ (l.append x).tail = l
      ∧ ((l.append x).tail).iterList = l.iterList
      ∧ (PList.new : PList α).tail = PList.new
      ∧ (PList.new : PList α).tail.headElem = none :=
  ⟨rfl, rfl, rfl, rfl, rfl⟩
